import Mathlib

/-!
Verification of the retrieval-and-memoization engine.

Shallow embedding of the engine's components: the BM25 lexical index, the
in-memory vector store, the rank-fusion retriever, the memoized snapshot
store and the similarity-gated answer cache.  Python dictionaries are
modelled as insertion-ordered association lists, floating point scores as
rationals (exact real arithmetic where the code uses transcendental
functions), and fallible callbacks as `Except` values.
-/

namespace Engine

/-- Insertion-ordered dictionary write, as Python dict assignment:
replace the value in place when the key is present, append otherwise. -/
def dictInsert {β : Type} : List (String × β) → String → β → List (String × β)
  | [], k, v => [(k, v)]
  | (k', v') :: rest, k, v =>
    if k' = k then (k, v) :: rest else (k', v') :: dictInsert rest k v

theorem lookup_dictInsert_self {β : Type} (l : List (String × β)) (k : String) (v : β) :
    (dictInsert l k v).lookup k = some v := by
  induction l with
  | nil => simp [dictInsert, List.lookup]
  | cons p rest ih =>
    obtain ⟨k', v'⟩ := p
    by_cases h : k' = k
    · simp [dictInsert, h, List.lookup]
    · have hb : (k == k') = false := beq_eq_false_iff_ne.mpr (Ne.symm h)
      simp [dictInsert, h, List.lookup, hb, ih]

theorem lookup_dictInsert_other {β : Type} (l : List (String × β)) (k k₀ : String) (v : β)
    (h : k₀ ≠ k) : (dictInsert l k v).lookup k₀ = l.lookup k₀ := by
  have hb : (k₀ == k) = false := beq_eq_false_iff_ne.mpr h
  induction l with
  | nil => simp [dictInsert, List.lookup, hb]
  | cons p rest ih =>
    obtain ⟨k', v'⟩ := p
    by_cases hk : k' = k
    · subst hk
      simp [dictInsert, List.lookup, hb]
    · simp [dictInsert, hk, List.lookup, ih]

theorem length_dictInsert_new {β : Type} (l : List (String × β)) (k : String) (v : β)
    (h : l.lookup k = none) : (dictInsert l k v).length = l.length + 1 := by
  induction l with
  | nil => simp [dictInsert]
  | cons p rest ih =>
    obtain ⟨k', v'⟩ := p
    simp only [List.lookup] at h
    by_cases hk : k' = k
    · subst hk
      simp at h
    · have hb : (k == k') = false := beq_eq_false_iff_ne.mpr (Ne.symm hk)
      rw [hb] at h
      simp only [dictInsert, hk, if_false, List.length]
      rw [ih h]

theorem lookup_eq_none_of_not_mem_keys {β : Type} (l : List (String × β)) (k : String)
    (h : k ∉ l.map Prod.fst) : l.lookup k = none := by
  induction l with
  | nil => simp [List.lookup]
  | cons p rest ih =>
    obtain ⟨k', v'⟩ := p
    simp only [List.map, List.mem_cons, not_or] at h
    have hb : (k == k') = false := beq_eq_false_iff_ne.mpr h.1
    simp [List.lookup, hb, ih h.2]

end Engine

namespace Snap

/-- Snapshot domain object (`jagalchi_ai/ai_core/repository/snapshot.py`):
key, payload, version, creation time and metadata.  The payload type is a
parameter; `created_at` is the clock value passed to `put`. -/
structure Snapshot (α : Type) where
  key : String
  payload : α
  version : String
  created_at : ℕ
  metadata : List (String × String)
deriving Repr, DecidableEq

/-- Memoized build store state (`SnapshotStore.__init__`): the key →
snapshot dictionary plus the running `hits`/`misses` counters. -/
structure SnapshotStore (α : Type) where
  store : List (String × Snapshot α)
  hits : ℕ
  misses : ℕ
deriving Repr, DecidableEq

/-- `SnapshotStore.get`: return the stored snapshot when present (bumping
`hits`), otherwise `none` (bumping `misses`).  A stored dataclass instance
is always truthy, so presence alone decides the branch. -/
def SnapshotStore.get {α : Type} (s : SnapshotStore α) (key : String) :
    Option (Snapshot α) × SnapshotStore α :=
  match s.store.lookup key with
  | some snap => (some snap, { s with hits := s.hits + 1 })
  | none => (none, { s with misses := s.misses + 1 })

/-- `SnapshotStore.put`: unconditionally store a fresh snapshot stamped
with the current time and return it. -/
def SnapshotStore.put {α : Type} (s : SnapshotStore α) (key : String) (payload : α)
    (version : String) (now : ℕ) (metadata : List (String × String)) :
    Snapshot α × SnapshotStore α :=
  let snap : Snapshot α := ⟨key, payload, version, now, metadata⟩
  (snap, { s with store := Engine.dictInsert s.store key snap })

/-- `SnapshotStore.get_or_create`: return the cached snapshot on a `get`
hit; otherwise run the builder and store its payload via `put`.  The
builder is an `Except` value (a raised exception propagates, as in the
Python `builder()` call); the third component counts how many times the
builder was invoked during the call. -/
def SnapshotStore.getOrCreate {α ε : Type} (s : SnapshotStore α) (key version : String)
    (builder : Except ε α) (now : ℕ) (metadata : List (String × String)) :
    Except ε (Snapshot α) × SnapshotStore α × ℕ :=
  match s.get key with
  | (some cached, s') => (Except.ok cached, s', 0)
  | (none, s') =>
    match builder with
    | Except.ok payload =>
      let ps := s'.put key payload version now metadata
      (Except.ok ps.1, ps.2, 1)
    | Except.error e => (Except.error e, s', 1)

/-- `SnapshotStore.size`: number of stored snapshots. -/
def SnapshotStore.size {α : Type} (s : SnapshotStore α) : ℕ :=
  s.store.length

/-- C2: for a key absent from the store, calling `get_or_create` twice in
sequence invokes the builder exactly once (once on the first call, zero
times on the second), both calls return snapshots with equal payloads, the
first call increments `misses` by one and the second increments `hits` by
one. -/
theorem getOrCreate_twice_unseen {α : Type} (s : SnapshotStore α) (key version : String)
    (payload : α) (now₁ now₂ : ℕ) (md : List (String × String))
    (habs : s.store.lookup key = none) :
    let r₁ := s.getOrCreate key version (Except.ok payload : Except Unit α) now₁ md
    let r₂ := r₁.2.1.getOrCreate key version (Except.ok payload : Except Unit α) now₂ md
    r₁.2.2 = 1 ∧ r₂.2.2 = 0 ∧
      (∃ a b, r₁.1 = Except.ok a ∧ r₂.1 = Except.ok b ∧ a.payload = b.payload) ∧
      r₁.2.1.misses = s.misses + 1 ∧ r₁.2.1.hits = s.hits ∧
      r₂.2.1.hits = r₁.2.1.hits + 1 ∧ r₂.2.1.misses = r₁.2.1.misses := by
  have hlk : (Engine.dictInsert s.store key
      (⟨key, payload, version, now₁, md⟩ : Snapshot α)).lookup key =
      some ⟨key, payload, version, now₁, md⟩ :=
    Engine.lookup_dictInsert_self s.store key _
  simp only [SnapshotStore.getOrCreate, SnapshotStore.get, SnapshotStore.put, habs, hlk]
  simp

/-- Witness for C2 at a concrete input: the empty store, key "k". -/
theorem getOrCreate_twice_unseen_witness :
    ((⟨[], 0, 0⟩ : SnapshotStore ℕ).store.lookup "k" = none) ∧
    (let r₁ := (⟨[], 0, 0⟩ : SnapshotStore ℕ).getOrCreate "k" "v1"
      (Except.ok 7 : Except Unit ℕ) 5 []
     let r₂ := r₁.2.1.getOrCreate "k" "v1" (Except.ok 7 : Except Unit ℕ) 6 []
     r₁.2.2 = 1 ∧ r₂.2.2 = 0 ∧
      (∃ a b, r₁.1 = Except.ok a ∧ r₂.1 = Except.ok b ∧ a.payload = b.payload) ∧
      r₁.2.1.misses = 0 + 1 ∧ r₁.2.1.hits = 0 ∧
      r₂.2.1.hits = r₁.2.1.hits + 1 ∧ r₂.2.1.misses = r₁.2.1.misses) :=
  ⟨rfl, getOrCreate_twice_unseen ⟨[], 0, 0⟩ "k" "v1" 7 5 6 [] rfl⟩

/-- C3: for a key already holding a snapshot, `get_or_create` with any
version (in particular one differing from the stored snapshot's version)
returns the stored snapshot unchanged, invokes the builder zero times, and
leaves the key → snapshot map exactly as it was (only the `hits` counter
changes). -/
theorem getOrCreate_version_ignored {α : Type} (s : SnapshotStore α) (key v₂ : String)
    (payload : α) (now : ℕ) (md : List (String × String)) (snap : Snapshot α)
    (hstored : s.store.lookup key = some snap) (hver : snap.version ≠ v₂) :
    s.getOrCreate key v₂ (Except.ok payload : Except Unit α) now md =
      (Except.ok snap, { s with hits := s.hits + 1 }, 0) ∧
    ({ s with hits := s.hits + 1 } : SnapshotStore α).store = s.store := by
  constructor
  · simp only [SnapshotStore.getOrCreate, SnapshotStore.get, hstored]
  · rfl

/-- Witness for C3 at a concrete input: a store holding key "k" at version
"v1", queried with version "v2". -/
theorem getOrCreate_version_ignored_witness :
    ((⟨[("k", ⟨"k", 9, "v1", 3, []⟩)], 2, 1⟩ : SnapshotStore ℕ).store.lookup "k" =
      some ⟨"k", 9, "v1", 3, []⟩) ∧
    ((⟨"k", 9, "v1", 3, []⟩ : Snapshot ℕ).version ≠ "v2") ∧
    ((⟨[("k", ⟨"k", 9, "v1", 3, []⟩)], 2, 1⟩ : SnapshotStore ℕ).getOrCreate "k" "v2"
        (Except.ok 0 : Except Unit ℕ) 8 [] =
      (Except.ok ⟨"k", 9, "v1", 3, []⟩, ⟨[("k", ⟨"k", 9, "v1", 3, []⟩)], 3, 1⟩, 0)) := by
  refine ⟨rfl, by decide, ?_⟩
  exact (getOrCreate_version_ignored ⟨[("k", ⟨"k", 9, "v1", 3, []⟩)], 2, 1⟩ "k" "v2" 0 8 []
    ⟨"k", 9, "v1", 3, []⟩ rfl (by decide)).1

/-- C6: when the builder fails (raises) during `get_or_create` for an
absent key, the error propagates, the key → snapshot map is exactly as it
was before the call, and a subsequent `get` on the key still reports
absent. -/
theorem getOrCreate_builder_failure {α ε : Type} (s : SnapshotStore α) (key version : String)
    (e : ε) (now : ℕ) (md : List (String × String))
    (habs : s.store.lookup key = none) :
    let r := s.getOrCreate key version (Except.error e : Except ε α) now md
    r.1 = Except.error e ∧ r.2.1.store = s.store ∧ (r.2.1.get key).1 = none := by
  simp only [SnapshotStore.getOrCreate, SnapshotStore.get, habs]
  simp

/-- Witness for C6 at a concrete input: the empty store, a failing
builder. -/
theorem getOrCreate_builder_failure_witness :
    ((⟨[], 0, 0⟩ : SnapshotStore ℕ).store.lookup "k" = none) ∧
    (let r := (⟨[], 0, 0⟩ : SnapshotStore ℕ).getOrCreate "k" "v1"
        (Except.error () : Except Unit ℕ) 4 []
     r.1 = Except.error () ∧ r.2.1.store = ([] : List (String × Snapshot ℕ)) ∧
      (r.2.1.get "k").1 = none) :=
  ⟨rfl, getOrCreate_builder_failure ⟨[], 0, 0⟩ "k" "v1" () 4 [] rfl⟩

end Snap

namespace Retrieval

/-- Universal retrieval result type (`RetrievalItem`): provenance source,
item id, score, snippet and metadata.  Scores are modelled as exact
rationals. -/
structure RetrievalItem where
  source : String
  item_id : String
  score : ℚ
  snippet : String
  metadata : List (String × String)
deriving Repr, DecidableEq

/-- Per-strategy weight lookup in `HybridRetriever.search`:
`self._weights.get(name, 1.0)`. -/
def weightOf (weights : List (String × ℚ)) (name : String) : ℚ :=
  (weights.lookup name).getD 1

/-- In-place score accumulation on the first entry with the given key
(`existing.score += scored`). -/
def bumpScore : List (String × RetrievalItem) → String → ℚ → List (String × RetrievalItem)
  | [], _, _ => []
  | (k, it) :: rest, i, d =>
    if k = i then (k, { it with score := it.score + d }) :: rest
    else (k, it) :: bumpScore rest i d

/-- One iteration of the inner merge loop of `HybridRetriever.search`: if
the item id is already present, add the weighted score to the existing
entry; otherwise append a fresh entry carrying the weighted score (and the
first-encountered source, snippet and metadata). -/
def insertHit (combined : List (String × RetrievalItem)) (item : RetrievalItem) (w : ℚ) :
    List (String × RetrievalItem) :=
  match combined.lookup item.item_id with
  | some _ => bumpScore combined item.item_id (item.score * w)
  | none => combined ++ [(item.item_id, { item with score := item.score * w })]

/-- Merge one strategy's hit list into the accumulator. -/
def fuseItems (combined : List (String × RetrievalItem)) (items : List RetrievalItem)
    (w : ℚ) : List (String × RetrievalItem) :=
  items.foldl (fun c it => insertHit c it w) combined

/-- The retriever loop of `HybridRetriever.search`: strategies run in
configuration order, each merged under its configured weight. -/
def fuseFrom (combined : List (String × RetrievalItem))
    (retrievers : List (String × (String → ℕ → List RetrievalItem)))
    (weights : List (String × ℚ)) (query : String) (k : ℕ) :
    List (String × RetrievalItem) :=
  retrievers.foldl (fun c nf => fuseItems c (nf.2 query k) (weightOf weights nf.1)) combined

/-- Stable descending insertion by score (the semantics of Python
`sorted(..., key=lambda i: i.score, reverse=True)`). -/
def insertDesc (x : RetrievalItem) : List RetrievalItem → List RetrievalItem
  | [] => [x]
  | y :: ys => if y.score ≤ x.score then x :: y :: ys else y :: insertDesc x ys

/-- Stable sort by score descending. -/
def sortDesc : List RetrievalItem → List RetrievalItem
  | [] => []
  | x :: xs => insertDesc x (sortDesc xs)

/-- `HybridRetriever.search`: merge all strategies' results by item id
with weighted-score addition, sort by total score descending, truncate to
`top_k`. -/
def hybridSearch (retrievers : List (String × (String → ℕ → List RetrievalItem)))
    (weights : List (String × ℚ)) (query : String) (k : ℕ) : List RetrievalItem :=
  (sortDesc ((fuseFrom [] retrievers weights query k).map Prod.snd)).take k

/-- Sum of the raw scores a single strategy's hit list assigns to a given
item id (an id occurring several times in one list contributes each
occurrence). -/
def sumScoresFor (items : List RetrievalItem) (i : String) : ℚ :=
  ((items.filter (fun it => it.item_id = i)).map (fun it => it.score)).sum

/-- The specified fused score: the sum over all strategies of the
strategy's weight times the scores it assigned to the item id. -/
def fusedSum (retrievers : List (String × (String → ℕ → List RetrievalItem)))
    (weights : List (String × ℚ)) (query : String) (k : ℕ) (i : String) : ℚ :=
  match retrievers with
  | [] => 0
  | (n, f) :: rest =>
    weightOf weights n * sumScoresFor (f query k) i + fusedSum rest weights query k i

/-- Whether some strategy returned the item id for this query. -/
def returnedBy (retrievers : List (String × (String → ℕ → List RetrievalItem)))
    (query : String) (k : ℕ) (i : String) : Bool :=
  retrievers.any (fun nf => (nf.2 query k).any (fun it => it.item_id = i))

/-- Score recorded in the merge accumulator for an item id, when
present. -/
def scoreAt (c : List (String × RetrievalItem)) (i : String) : Option ℚ :=
  (c.lookup i).map (fun it => it.score)

/-- How merging updates an optional accumulated score: an existing entry
absorbs the delta, a new entry appears only when the strategy actually
returned the id. -/
def mergeScore : Option ℚ → Bool → ℚ → Option ℚ
  | some s, _, d => some (s + d)
  | none, true, d => some d
  | none, false, _ => none

theorem lookup_bumpScore_self (c : List (String × RetrievalItem)) (i : String) (d : ℚ) :
    (bumpScore c i d).lookup i = (c.lookup i).map (fun it => { it with score := it.score + d }) := by
  induction c with
  | nil => simp [bumpScore, List.lookup]
  | cons p rest ih =>
    obtain ⟨k, it⟩ := p
    by_cases h : k = i
    · subst h
      simp [bumpScore, List.lookup]
    · have hb : (i == k) = false := beq_eq_false_iff_ne.mpr (Ne.symm h)
      simp [bumpScore, h, List.lookup, hb, ih]

theorem lookup_bumpScore_other (c : List (String × RetrievalItem)) (i j : String) (d : ℚ)
    (h : j ≠ i) : (bumpScore c i d).lookup j = c.lookup j := by
  induction c with
  | nil => simp [bumpScore]
  | cons p rest ih =>
    obtain ⟨k, it⟩ := p
    by_cases hk : k = i
    · subst hk
      have hb : (j == k) = false := beq_eq_false_iff_ne.mpr h
      simp [bumpScore, List.lookup, hb]
    · simp [bumpScore, hk, List.lookup, ih]

theorem lookup_append_single {β : Type} (c : List (String × β)) (j : String) (x : β)
    (i : String) :
    (c ++ [(j, x)]).lookup i =
      match c.lookup i with
      | some v => some v
      | none => if i = j then some x else none := by
  induction c with
  | nil =>
    by_cases h : i = j
    · simp [List.lookup, h]
    · have hb : (i == j) = false := beq_eq_false_iff_ne.mpr h
      simp [List.lookup, hb, h]
  | cons p rest ih =>
    obtain ⟨k, v⟩ := p
    by_cases h : i = k
    · simp [List.lookup, h]
    · have hb : (i == k) = false := beq_eq_false_iff_ne.mpr h
      simp [List.lookup, hb, ih]

theorem scoreAt_insertHit (c : List (String × RetrievalItem)) (it : RetrievalItem) (w : ℚ)
    (i : String) :
    scoreAt (insertHit c it w) i =
      if it.item_id = i then some ((scoreAt c i).getD 0 + it.score * w)
      else scoreAt c i := by
  by_cases h : it.item_id = i
  · subst h
    simp only [insertHit, if_pos rfl]
    cases hc : c.lookup it.item_id with
    | some ex =>
      simp [scoreAt, lookup_bumpScore_self, hc]
    | none =>
      simp [scoreAt, lookup_append_single, hc]
  · simp only [insertHit, if_neg h]
    cases hc : c.lookup it.item_id with
    | some ex =>
      simp [scoreAt, lookup_bumpScore_other c it.item_id i (it.score * w) (Ne.symm h)]
    | none =>
      have : (c ++ [(it.item_id, { it with score := it.score * w })]).lookup i = c.lookup i := by
        rw [lookup_append_single]
        cases hci : c.lookup i with
        | some v => simp
        | none => simp [Ne.symm h]
      simp [scoreAt, this]

theorem sumScoresFor_cons (it : RetrievalItem) (rest : List RetrievalItem) (i : String) :
    sumScoresFor (it :: rest) i =
      (if it.item_id = i then it.score else 0) + sumScoresFor rest i := by
  by_cases h : it.item_id = i
  · simp [sumScoresFor, h]
  · simp [sumScoresFor, h]

theorem sumScoresFor_eq_zero (items : List RetrievalItem) (i : String)
    (h : items.any (fun it => it.item_id = i) = false) : sumScoresFor items i = 0 := by
  induction items with
  | nil => simp [sumScoresFor]
  | cons it rest ih =>
    simp only [List.any_cons, Bool.or_eq_false_iff] at h
    rw [sumScoresFor_cons]
    have hne : ¬ it.item_id = i := by
      intro he
      simp [he] at h
    rw [if_neg hne, ih h.2, add_zero]

theorem fusedSum_eq_zero (rs : List (String × (String → ℕ → List RetrievalItem)))
    (ws : List (String × ℚ)) (q : String) (k : ℕ) (i : String)
    (h : returnedBy rs q k i = false) : fusedSum rs ws q k i = 0 := by
  induction rs with
  | nil => simp [fusedSum]
  | cons nf rest ih =>
    obtain ⟨n, f⟩ := nf
    simp only [returnedBy, List.any_cons, Bool.or_eq_false_iff] at h
    have h2 : returnedBy rest q k i = false := by
      simpa [returnedBy] using h.2
    simp [fusedSum, sumScoresFor_eq_zero _ _ h.1, ih h2]

theorem mergeScore_mergeScore (o : Option ℚ) (b₁ : Bool) (d₁ : ℚ) (b₂ : Bool) (d₂ : ℚ)
    (h₁ : b₁ = false → d₁ = 0) (h₂ : b₂ = false → d₂ = 0) :
    mergeScore (mergeScore o b₁ d₁) b₂ d₂ = mergeScore o (b₁ || b₂) (d₁ + d₂) := by
  cases o with
  | some s => cases b₁ <;> cases b₂ <;> simp [mergeScore, add_assoc]
  | none =>
    cases b₁ with
    | false =>
      cases b₂ with
      | false => simp [mergeScore]
      | true => simp [mergeScore, h₁ rfl]
    | true =>
      cases b₂ with
      | false => simp [mergeScore, h₂ rfl]
      | true => simp [mergeScore]

theorem scoreAt_fuseItems (c : List (String × RetrievalItem)) (items : List RetrievalItem)
    (w : ℚ) (i : String) :
    scoreAt (fuseItems c items w) i =
      mergeScore (scoreAt c i) (items.any (fun it => it.item_id = i))
        (w * sumScoresFor items i) := by
  induction items generalizing c with
  | nil =>
    cases hc : scoreAt c i <;> simp [fuseItems, mergeScore, sumScoresFor, hc]
  | cons it rest ih =>
    have hstep : fuseItems c (it :: rest) w = fuseItems (insertHit c it w) rest w := rfl
    rw [hstep, ih, scoreAt_insertHit, sumScoresFor_cons]
    by_cases h : it.item_id = i
    · rw [if_pos h, if_pos h]
      cases hc : scoreAt c i with
      | some s =>
        cases hb : rest.any (fun it => it.item_id = i) <;>
          simp [mergeScore, List.any_cons, h, hb] <;> ring
      | none =>
        cases hb : rest.any (fun it => it.item_id = i) <;>
          simp [mergeScore, List.any_cons, h, hb] <;> ring
    · rw [if_neg h, if_neg h]
      simp [List.any_cons, h, zero_add]

theorem scoreAt_fuseFrom (c : List (String × RetrievalItem))
    (rs : List (String × (String → ℕ → List RetrievalItem)))
    (ws : List (String × ℚ)) (q : String) (k : ℕ) (i : String) :
    scoreAt (fuseFrom c rs ws q k) i =
      mergeScore (scoreAt c i) (returnedBy rs q k i) (fusedSum rs ws q k i) := by
  induction rs generalizing c with
  | nil =>
    cases hc : scoreAt c i <;> simp [fuseFrom, returnedBy, fusedSum, mergeScore, hc]
  | cons nf rest ih =>
    obtain ⟨n, f⟩ := nf
    have hstep : fuseFrom c ((n, f) :: rest) ws q k =
        fuseFrom (fuseItems c (f q k) (weightOf ws n)) rest ws q k := rfl
    rw [hstep, ih, scoreAt_fuseItems]
    rw [mergeScore_mergeScore]
    · have hany : returnedBy ((n, f) :: rest) q k i =
          ((f q k).any (fun it => it.item_id = i) || returnedBy rest q k i) := by
        simp [returnedBy]
      have hsum : fusedSum ((n, f) :: rest) ws q k i =
          weightOf ws n * sumScoresFor (f q k) i + fusedSum rest ws q k i := rfl
      rw [hany, hsum]
    · intro hb
      rw [sumScoresFor_eq_zero _ _ hb, mul_zero]
    · intro hb
      exact fusedSum_eq_zero _ _ _ _ _ hb

/-- All accumulator entries are keyed by their item's id and keys are
unique. -/
def GoodAcc (c : List (String × RetrievalItem)) : Prop :=
  (∀ p ∈ c, (p.2 : RetrievalItem).item_id = p.1) ∧ (c.map Prod.fst).Nodup

theorem not_mem_keys_of_lookup_none {β : Type} (l : List (String × β)) (k : String)
    (h : l.lookup k = none) : k ∉ l.map Prod.fst := by
  induction l with
  | nil => simp
  | cons p rest ih =>
    obtain ⟨k', v'⟩ := p
    simp only [List.lookup] at h
    by_cases hk : k = k'
    · simp [hk] at h
    · have hb : (k == k') = false := beq_eq_false_iff_ne.mpr hk
      rw [hb] at h
      simp only [List.map, List.mem_cons, not_or]
      exact ⟨hk, ih h⟩

theorem keys_bumpScore (c : List (String × RetrievalItem)) (i : String) (d : ℚ) :
    (bumpScore c i d).map Prod.fst = c.map Prod.fst := by
  induction c with
  | nil => simp [bumpScore]
  | cons p rest ih =>
    obtain ⟨k, it⟩ := p
    by_cases h : k = i <;> simp [bumpScore, h, ih]

theorem bumpScore_preserves_ids (c : List (String × RetrievalItem)) (i : String) (d : ℚ)
    (h : ∀ p ∈ c, (p.2 : RetrievalItem).item_id = p.1) :
    ∀ p ∈ bumpScore c i d, (p.2 : RetrievalItem).item_id = p.1 := by
  induction c with
  | nil =>
    intro p hp
    simp [bumpScore] at hp
  | cons q rest ih =>
    obtain ⟨k, it⟩ := q
    intro p hp
    by_cases hk : k = i
    · simp only [bumpScore, if_pos hk] at hp
      rcases List.mem_cons.mp hp with h1 | h1
      · subst h1
        exact h (k, it) (by simp)
      · exact h p (List.mem_cons_of_mem _ h1)
    · simp only [bumpScore, if_neg hk] at hp
      rcases List.mem_cons.mp hp with h1 | h1
      · subst h1
        exact h (k, it) (by simp)
      · exact ih (fun r hr => h r (List.mem_cons_of_mem _ hr)) p h1

theorem goodAcc_bumpScore (c : List (String × RetrievalItem)) (i : String) (d : ℚ)
    (hg : GoodAcc c) : GoodAcc (bumpScore c i d) := by
  refine ⟨bumpScore_preserves_ids c i d hg.1, ?_⟩
  rw [keys_bumpScore]
  exact hg.2

theorem goodAcc_insertHit (c : List (String × RetrievalItem)) (it : RetrievalItem) (w : ℚ)
    (hg : GoodAcc c) : GoodAcc (insertHit c it w) := by
  unfold insertHit
  cases hc : c.lookup it.item_id with
  | some ex => exact goodAcc_bumpScore c it.item_id (it.score * w) hg
  | none =>
    constructor
    · intro p hp
      rcases List.mem_append.mp hp with hp | hp
      · exact hg.1 p hp
      · simp only [List.mem_singleton] at hp
        subst hp
        rfl
    · have hnotin : it.item_id ∉ c.map Prod.fst := not_mem_keys_of_lookup_none c _ hc
      simp only [List.map_append, List.map]
      simp [List.nodup_append, hg.2, hnotin]

theorem goodAcc_fuseItems (c : List (String × RetrievalItem)) (items : List RetrievalItem)
    (w : ℚ) (hg : GoodAcc c) : GoodAcc (fuseItems c items w) := by
  induction items generalizing c with
  | nil => exact hg
  | cons it rest ih => exact ih _ (goodAcc_insertHit c it w hg)

theorem goodAcc_fuseFrom (c : List (String × RetrievalItem))
    (rs : List (String × (String → ℕ → List RetrievalItem)))
    (ws : List (String × ℚ)) (q : String) (k : ℕ) (hg : GoodAcc c) :
    GoodAcc (fuseFrom c rs ws q k) := by
  induction rs generalizing c with
  | nil => exact hg
  | cons nf rest ih => exact ih _ (goodAcc_fuseItems _ _ _ hg)

theorem lookup_eq_of_mem {β : Type} (c : List (String × β)) (j : String) (x : β)
    (hmem : (j, x) ∈ c) (hnd : (c.map Prod.fst).Nodup) : c.lookup j = some x := by
  induction c with
  | nil => simp at hmem
  | cons p rest ih =>
    obtain ⟨k, v⟩ := p
    simp only [List.map, List.nodup_cons] at hnd
    rcases List.mem_cons.mp hmem with hp | hp
    · obtain ⟨h1, h2⟩ := Prod.mk.injEq .. ▸ hp
      injection hp with h1 h2
      subst h1
      subst h2
      simp [List.lookup]
    · by_cases hk : j = k
      · subst hk
        exact absurd (List.mem_map.mpr ⟨(j, x), hp, rfl⟩) hnd.1
      · have hb : (j == k) = false := beq_eq_false_iff_ne.mpr hk
        simp only [List.lookup, hb]
        exact ih hp hnd.2

theorem mem_insertDesc (a x : RetrievalItem) (l : List RetrievalItem) :
    a ∈ insertDesc x l ↔ a = x ∨ a ∈ l := by
  induction l with
  | nil => simp [insertDesc]
  | cons y ys ih =>
    by_cases h : y.score ≤ x.score
    · simp [insertDesc, h]
    · simp only [insertDesc, if_neg h, List.mem_cons, ih]
      tauto

theorem mem_sortDesc (a : RetrievalItem) (l : List RetrievalItem) :
    a ∈ sortDesc l ↔ a ∈ l := by
  induction l with
  | nil => simp [sortDesc]
  | cons x xs ih => simp [sortDesc, mem_insertDesc, ih]

/-- C1: every item in the fused result of `HybridRetriever.search` carries
exactly the sum, over all strategies that returned its id, of the hit
score times the strategy's configured weight (default 1 when
unspecified); in particular two strategies returning the same id with
scores s1, s2 under weights w1, w2 fuse to exactly s1*w1 + s2*w2. -/
theorem hybrid_score_additive (rs : List (String × (String → ℕ → List RetrievalItem)))
    (ws : List (String × ℚ)) (q : String) (k : ℕ) (r : RetrievalItem)
    (hr : r ∈ hybridSearch rs ws q k) :
    r.score = fusedSum rs ws q k r.item_id := by
  have h1 : r ∈ sortDesc ((fuseFrom [] rs ws q k).map Prod.snd) :=
    List.take_subset k _ hr
  have h2 : r ∈ (fuseFrom [] rs ws q k).map Prod.snd := (mem_sortDesc _ _).mp h1
  obtain ⟨p, hp, hpr⟩ := List.mem_map.mp h2
  obtain ⟨j, x⟩ := p
  have hgood : GoodAcc (fuseFrom [] rs ws q k) :=
    goodAcc_fuseFrom [] rs ws q k ⟨by simp, by simp⟩
  have hid : x.item_id = j := hgood.1 (j, x) hp
  have hlk : (fuseFrom [] rs ws q k).lookup j = some x := lookup_eq_of_mem _ j x hp hgood.2
  have hsc : scoreAt (fuseFrom [] rs ws q k) j = some x.score := by
    simp [scoreAt, hlk]
  rw [scoreAt_fuseFrom] at hsc
  have hnone : scoreAt ([] : List (String × RetrievalItem)) j = none := rfl
  rw [hnone] at hsc
  cases hb : returnedBy rs q k j with
  | false =>
    rw [hb] at hsc
    simp [mergeScore] at hsc
  | true =>
    rw [hb] at hsc
    simp only [mergeScore, Option.some.injEq] at hsc
    subst hpr
    rw [hid, ← hsc]

/-- Witness for C1 at a concrete input: a lexical hit (score 2, default
weight 1) and a vector hit on the same id (score 3, weight 2) fuse to
exactly 2*1 + 3*2 = 8. -/
theorem hybrid_score_additive_witness :
    (⟨"l", "x", 8, "", []⟩ : RetrievalItem) ∈ hybridSearch
      [("lex", fun _ _ => [⟨"l", "x", 2, "", []⟩]),
       ("vec", fun _ _ => [⟨"v", "x", 3, "", []⟩])] [("vec", 2)] "q" 5 ∧
    (⟨"l", "x", 8, "", []⟩ : RetrievalItem).score = fusedSum
      [("lex", fun _ _ => [⟨"l", "x", 2, "", []⟩]),
       ("vec", fun _ _ => [⟨"v", "x", 3, "", []⟩])] [("vec", 2)] "q" 5
      (⟨"l", "x", 8, "", []⟩ : RetrievalItem).item_id := by
  have hmem : (⟨"l", "x", 8, "", []⟩ : RetrievalItem) ∈ hybridSearch
      [("lex", fun _ _ => [⟨"l", "x", 2, "", []⟩]),
       ("vec", fun _ _ => [⟨"v", "x", 3, "", []⟩])] [("vec", 2)] "q" 5 := by
    have h1 : (("lex" : String) == "vec") = false := by decide
    have h2 : (("vec" : String) == "vec") = true := by decide
    norm_num [hybridSearch, fuseFrom, fuseItems, insertHit, bumpScore, weightOf,
      sortDesc, insertDesc, List.lookup, h1, h2]
  exact ⟨hmem, hybrid_score_additive _ _ _ _ _ hmem⟩

theorem fusedSum_append (l₁ l₂ : List (String × (String → ℕ → List RetrievalItem)))
    (ws : List (String × ℚ)) (q : String) (k : ℕ) (i : String) :
    fusedSum (l₁ ++ l₂) ws q k i = fusedSum l₁ ws q k i + fusedSum l₂ ws q k i := by
  induction l₁ with
  | nil => simp [fusedSum]
  | cons nf rest ih =>
    obtain ⟨n, f⟩ := nf
    simp [fusedSum, ih, add_assoc]

theorem returnedBy_append (l₁ l₂ : List (String × (String → ℕ → List RetrievalItem)))
    (q : String) (k : ℕ) (i : String) :
    returnedBy (l₁ ++ l₂) q k i = (returnedBy l₁ q k i || returnedBy l₂ q k i) := by
  simp [returnedBy, List.any_append]

/-- C7 counterexample: a single strategy with weight 0 returning item
"a".  With the strategy present the fused result list is one item with
score 0; with the strategy omitted the result list is empty, so the
results are not identical in scores. -/
theorem hybrid_weight_zero_counterexample :
    ¬ ((hybridSearch [("z", fun _ _ => [⟨"s", "a", 1, "", []⟩])] [("z", 0)] "q" 5).map
        (fun r => r.score) =
      (hybridSearch [] [("z", 0)] "q" 5).map (fun r => r.score)) := by
  norm_num [hybridSearch, fuseFrom, fuseItems, insertHit, bumpScore, weightOf,
    sortDesc, insertDesc, List.lookup]

/-- C7 amended: with a strategy whose configured weight is 0, every item
id returned by the remaining strategies receives exactly the same merged
score as when the strategy is omitted from the configuration; an item id
returned only by the zero-weight strategy, however, appears in the merged
score map with score 0 instead of being absent. -/
theorem hybrid_weight_zero_amended (pre post : List (String × (String → ℕ → List RetrievalItem)))
    (n : String) (f : String → ℕ → List RetrievalItem) (ws : List (String × ℚ))
    (q : String) (k : ℕ) (i : String) (hw : weightOf ws n = 0) :
    (returnedBy (pre ++ post) q k i = true →
      scoreAt (fuseFrom [] (pre ++ (n, f) :: post) ws q k) i =
        scoreAt (fuseFrom [] (pre ++ post) ws q k) i) ∧
    (returnedBy (pre ++ post) q k i = false → returnedBy [(n, f)] q k i = true →
      scoreAt (fuseFrom [] (pre ++ (n, f) :: post) ws q k) i = some 0 ∧
      scoreAt (fuseFrom [] (pre ++ post) ws q k) i = none) := by
  have hmid : pre ++ (n, f) :: post = pre ++ [(n, f)] ++ post := by simp
  have hsum : fusedSum (pre ++ (n, f) :: post) ws q k i =
      fusedSum (pre ++ post) ws q k i := by
    rw [hmid, fusedSum_append, fusedSum_append, fusedSum_append]
    simp [fusedSum, hw]
  have hret : returnedBy (pre ++ (n, f) :: post) q k i =
      (returnedBy pre q k i || returnedBy [(n, f)] q k i || returnedBy post q k i) := by
    rw [hmid, returnedBy_append, returnedBy_append]
  constructor
  · intro hon
    rw [scoreAt_fuseFrom, scoreAt_fuseFrom, hsum, hret]
    rw [returnedBy_append] at hon
    rcases Bool.or_eq_true_iff.mp hon with h1 | h1 <;>
      simp [returnedBy_append, h1]
  · intro hoff honly
    rw [returnedBy_append, Bool.or_eq_false_iff] at hoff
    have hzero : fusedSum (pre ++ post) ws q k i = 0 := by
      rw [fusedSum_append, fusedSum_eq_zero _ _ _ _ _ hoff.1,
        fusedSum_eq_zero _ _ _ _ _ hoff.2, add_zero]
    constructor
    · rw [scoreAt_fuseFrom, hsum, hret, hoff.1, hoff.2, honly, hzero]
      rfl
    · rw [scoreAt_fuseFrom, returnedBy_append, hoff.1, hoff.2]
      rfl

/-- Witness for C7's amended statement at a concrete input: strategy "g"
(weight 1) and zero-weighted strategy "z" both return item "a". -/
theorem hybrid_weight_zero_amended_witness :
    weightOf [("z", 0)] "z" = 0 ∧
    ((returnedBy ([("g", fun _ _ => [⟨"s", "a", 2, "", []⟩])] ++ []) "q" 5 "a" = true →
      scoreAt (fuseFrom [] ([("g", fun _ _ => [⟨"s", "a", 2, "", []⟩])] ++
          ("z", fun _ _ => [⟨"s", "a", 5, "", []⟩]) :: []) [("z", 0)] "q" 5) "a" =
        scoreAt (fuseFrom [] ([("g", fun _ _ => [⟨"s", "a", 2, "", []⟩])] ++ [])
          [("z", 0)] "q" 5) "a") ∧
    (returnedBy ([("g", fun _ _ => [⟨"s", "a", 2, "", []⟩])] ++ []) "q" 5 "a" = false →
      returnedBy [(("z" : String), fun _ _ => [⟨"s", "a", 5, "", []⟩])] "q" 5 "a" = true →
      scoreAt (fuseFrom [] ([("g", fun _ _ => [⟨"s", "a", 2, "", []⟩])] ++
          ("z", fun _ _ => [⟨"s", "a", 5, "", []⟩]) :: []) [("z", 0)] "q" 5) "a" = some 0 ∧
      scoreAt (fuseFrom [] ([("g", fun _ _ => [⟨"s", "a", 2, "", []⟩])] ++ [])
        [("z", 0)] "q" 5) "a" = none)) :=
  ⟨by simp [weightOf, List.lookup],
    hybrid_weight_zero_amended [("g", fun _ _ => [⟨"s", "a", 2, "", []⟩])] []
      "z" (fun _ _ => [⟨"s", "a", 5, "", []⟩]) [("z", 0)] "q" 5 "a"
      (by simp [weightOf, List.lookup])⟩

end Retrieval

namespace BM25

/-- Characters a token is made of (the word pattern: letters, digits,
underscore, hyphen, plus, dot; ASCII approximation of the regex). -/
def isTokenChar (c : Char) : Bool :=
  c.isAlphanum || c = '_' || c = '-' || c = '+' || c = '.'

/-- Maximal runs of token characters in a character list. -/
def splitRuns : List Char → List (List Char)
  | [] => []
  | c :: cs =>
    if isTokenChar c then
      match cs, splitRuns cs with
      | d :: _, r :: rs => if isTokenChar d then (c :: r) :: rs else [c] :: r :: rs
      | _, rs => [c] :: rs
    else splitRuns cs

/-- `tokenize(text)`: lowercase maximal token-character runs, in order. -/
def tokenize (s : String) : List String :=
  (splitRuns s.data).map (fun r => String.mk (r.map Char.toLower))

/-- Indexed document (`Document` dataclass). -/
structure Document where
  doc_id : String
  text : String
  metadata : List (String × String)
deriving Repr, DecidableEq

/-- `BM25Index` state: the document dictionary, the term → document
frequency counter, the per-document token counts and the average document
length. -/
structure BM25Index where
  docs : List (String × Document)
  doc_freq : List (String × ℕ)
  doc_len : List (String × ℕ)
  avg_len : ℚ
deriving Repr, DecidableEq

/-- One `Counter` increment: `doc_freq[t] += 1`, inserting at 0 first when
absent. -/
def counterBump (c : List (String × ℕ)) (t : String) : List (String × ℕ) :=
  Engine.dictInsert c t (((c.lookup t).getD 0) + 1)

/-- `Counter.update(iterable)`: bump every listed element once per
occurrence. -/
def counterUpdate (c : List (String × ℕ)) (ts : List String) : List (String × ℕ) :=
  ts.foldl counterBump c

/-- `set(tokens)`: the distinct tokens (iteration order of a Python set
is unspecified; only the underlying set of elements matters to the
counter update). -/
def dedup : List String → List String
  | [] => []
  | t :: ts =>
    let r := dedup ts
    if t ∈ r then r else t :: r

/-- Body of the `add_documents` loop for one document: documents with no
tokens are skipped; otherwise the document and its length are recorded
(insert-or-replace) and the document frequency of each distinct token is
bumped. -/
def addDocument (tok : String → List String) (idx : BM25Index) (doc : Document) : BM25Index :=
  let tokens := tok doc.text
  if tokens = [] then idx
  else
    { idx with
      docs := Engine.dictInsert idx.docs doc.doc_id doc
      doc_len := Engine.dictInsert idx.doc_len doc.doc_id tokens.length
      doc_freq := counterUpdate idx.doc_freq (dedup tokens) }

/-- `BM25Index.add_documents`: index each document, then recompute the
corpus average length over the whole `doc_len` map. -/
def addDocuments (tok : String → List String) (idx : BM25Index) (docs : List Document) :
    BM25Index :=
  let idx2 := docs.foldl (addDocument tok) idx
  { idx2 with
    avg_len := (idx2.doc_len.map (fun p => (p.2 : ℚ))).sum / (max idx2.doc_len.length 1 : ℚ) }

/-- Argument of the logarithm in the BM25 idf:
`(N - df + 0.5) / (df + 0.5) + 1`. -/
def idfArg (N df : ℕ) : ℚ :=
  ((N : ℚ) - (df : ℚ) + 1/2) / ((df : ℚ) + 1/2) + 1

/-- BM25 score of one document against the query tokens
(`BM25Index.search` inner loop).  `log` is the `math.log` collaborator on
the idf argument; query terms absent from the document contribute
nothing. -/
def scoreDoc (log : ℚ → ℚ) (idx : BM25Index) (qts dts : List String) (k1 b : ℚ) : ℚ :=
  qts.foldl
    (fun s term =>
      if dts.count term = 0 then s
      else
        let df := (idx.doc_freq.lookup term).getD 0
        let idf := log (idfArg idx.docs.length df)
        let tf : ℚ := (dts.count term : ℚ)
        let numerator := tf * (k1 + 1)
        let denominator :=
          tf + k1 * (1 - b + b * ((dts.length : ℚ) / (if idx.avg_len = 0 then 1 else idx.avg_len)))
        s + idf * (numerator / denominator))
    0

/-- Stable descending insertion on (id, score) pairs by score. -/
def insertPairDesc (x : String × ℚ) : List (String × ℚ) → List (String × ℚ)
  | [] => [x]
  | y :: ys => if y.2 ≤ x.2 then x :: y :: ys else y :: insertPairDesc x ys

/-- Stable sort of (id, score) pairs by score descending. -/
def sortPairsDesc : List (String × ℚ) → List (String × ℚ)
  | [] => []
  | x :: xs => insertPairDesc x (sortPairsDesc xs)

/-- `BM25Index.search`: empty-token queries return nothing; every indexed
document is scored, documents with positive score are ranked by score
descending and truncated to `top_k`; results carry the document's
`source` metadata (default "bm25") and a snippet from the summarizer
collaborator. -/
def search (tok : String → List String) (log : ℚ → ℚ) (summarize : String → String)
    (idx : BM25Index) (query : String) (top_k : ℕ) (k1 b : ℚ) :
    List Retrieval.RetrievalItem :=
  let qts := tok query
  if qts = [] then []
  else
    let scores := idx.docs.foldl
      (fun acc p =>
        let dts := tok p.2.text
        if dts = [] then acc
        else
          let score := scoreDoc log idx qts dts k1 b
          if 0 < score then acc ++ [(p.1, score)] else acc)
      ([] : List (String × ℚ))
    let ranked := (sortPairsDesc scores).take top_k
    ranked.map (fun p =>
      match idx.docs.lookup p.1 with
      | some doc =>
        ⟨(doc.metadata.lookup "source").getD "bm25", p.1, p.2, summarize doc.text, doc.metadata⟩
      | none => ⟨"bm25", p.1, p.2, "", []⟩)

/-- C5: for all `df ≤ N` the BM25 inverse document frequency
`ln((N - df + 0.5)/(df + 0.5) + 1)` is strictly positive. -/
theorem bm25_idf_pos (N df : ℕ) (h : df ≤ N) : 0 < Real.log ((idfArg N df : ℚ) : ℝ) := by
  apply Real.log_pos
  have harg : (1 : ℚ) < idfArg N df := by
    unfold idfArg
    have hnum : (0 : ℚ) < (N : ℚ) - (df : ℚ) + 1/2 := by
      have : (df : ℚ) ≤ (N : ℚ) := by exact_mod_cast h
      linarith
    have hden : (0 : ℚ) < (df : ℚ) + 1/2 := by positivity
    have := div_pos hnum hden
    linarith
  exact_mod_cast harg

/-- Witness for C5 at a concrete input: N = 3 documents, df = 2. -/
theorem bm25_idf_pos_witness :
    2 ≤ 3 ∧ 0 < Real.log ((idfArg 3 2 : ℚ) : ℝ) :=
  ⟨by norm_num, bm25_idf_pos 3 2 (by norm_num)⟩

theorem nodup_dedup (l : List String) : (dedup l).Nodup := by
  induction l with
  | nil => simp [dedup]
  | cons t ts ih =>
    simp only [dedup]
    by_cases h : t ∈ dedup ts
    · simp [h, ih]
    · simp [h, ih, List.nodup_cons]

theorem mem_dedup (x : String) (l : List String) : x ∈ dedup l ↔ x ∈ l := by
  induction l with
  | nil => simp [dedup]
  | cons t ts ih =>
    simp only [dedup]
    by_cases h : t ∈ dedup ts
    · rw [if_pos h]
      constructor
      · intro hx
        exact List.mem_cons_of_mem t (ih.mp hx)
      · intro hx
        rcases List.mem_cons.mp hx with hx | hx
        · subst hx
          exact h
        · exact ih.mpr hx
    · rw [if_neg h]
      simp [List.mem_cons, ih]

theorem counterUpdate_getD (ts : List String) (c : List (String × ℕ)) (t : String) :
    ((counterUpdate c ts).lookup t).getD 0 = (c.lookup t).getD 0 + ts.count t := by
  induction ts generalizing c with
  | nil => simp [counterUpdate]
  | cons s rest ih =>
    have hstep : counterUpdate c (s :: rest) = counterUpdate (counterBump c s) rest := rfl
    rw [hstep, ih]
    by_cases h : s = t
    · subst h
      rw [counterBump, Engine.lookup_dictInsert_self]
      simp [List.count_cons]
      omega
    · rw [counterBump, Engine.lookup_dictInsert_other _ _ _ _ (Ne.symm h)]
      have : ¬ (t = s) := fun he => h he.symm
      simp [List.count_cons, h]

theorem counterUpdate_lookup_not_mem (ts : List String) (c : List (String × ℕ)) (t : String)
    (h : t ∉ ts) : (counterUpdate c ts).lookup t = c.lookup t := by
  induction ts generalizing c with
  | nil => simp [counterUpdate]
  | cons s rest ih =>
    simp only [List.mem_cons, not_or] at h
    have hstep : counterUpdate c (s :: rest) = counterUpdate (counterBump c s) rest := rfl
    rw [hstep, ih _ h.2, counterBump, Engine.lookup_dictInsert_other _ _ _ _ h.1]

/-- C8 counterexample: indexing document "d1" with text "w" and then
re-adding the exact same document leaves the document-frequency counter
at 2 for term "w", not 1: the term-frequency statistics are updated, not
left unchanged. -/
theorem bm25_readd_counterexample :
    ¬ ((addDocuments tokenize
          (addDocuments tokenize ⟨[], [], [], 0⟩ [⟨"d1", "w", []⟩]) [⟨"d1", "w", []⟩]).doc_freq =
        (addDocuments tokenize ⟨[], [], [], 0⟩ [⟨"d1", "w", []⟩]).doc_freq) := by
  decide

/-- C8 amended: re-adding a document under an already-indexed id bumps the
document frequency of each of the document's distinct terms by one more
(document frequency accumulates on every add), and leaves the counter
untouched on every other term; the docs and doc_len entries are merely
overwritten. -/
theorem bm25_readd_amended (tok : String → List String) (idx : BM25Index) (d : Document)
    (hindexed : (idx.docs.lookup d.doc_id).isSome) (htok : tok d.text ≠ []) :
    (∀ t ∈ dedup (tok d.text),
      ((addDocuments tok idx [d]).doc_freq.lookup t).getD 0 =
        (idx.doc_freq.lookup t).getD 0 + 1) ∧
    (∀ t, t ∉ dedup (tok d.text) →
      (addDocuments tok idx [d]).doc_freq.lookup t = idx.doc_freq.lookup t) := by
  have hfreq : (addDocuments tok idx [d]).doc_freq =
      counterUpdate idx.doc_freq (dedup (tok d.text)) := by
    simp only [addDocuments, List.foldl, addDocument, if_neg htok]
  constructor
  · intro t ht
    rw [hfreq, counterUpdate_getD]
    rw [List.count_eq_one_of_mem (nodup_dedup _) ht]
  · intro t ht
    rw [hfreq, counterUpdate_lookup_not_mem _ _ _ ht]

/-- Witness for C8's amended statement at a concrete input: re-adding
document "d1" ("w") to the index that already holds it. -/
theorem bm25_readd_amended_witness :
    ((addDocuments tokenize ⟨[], [], [], 0⟩ [⟨"d1", "w", []⟩]).docs.lookup "d1").isSome ∧
    tokenize "w" ≠ [] ∧
    ((∀ t ∈ dedup (tokenize "w"),
      ((addDocuments tokenize (addDocuments tokenize ⟨[], [], [], 0⟩ [⟨"d1", "w", []⟩])
          [⟨"d1", "w", []⟩]).doc_freq.lookup t).getD 0 =
        ((addDocuments tokenize ⟨[], [], [], 0⟩ [⟨"d1", "w", []⟩]).doc_freq.lookup t).getD 0 + 1) ∧
    (∀ t, t ∉ dedup (tokenize "w") →
      (addDocuments tokenize (addDocuments tokenize ⟨[], [], [], 0⟩ [⟨"d1", "w", []⟩])
          [⟨"d1", "w", []⟩]).doc_freq.lookup t =
        (addDocuments tokenize ⟨[], [], [], 0⟩ [⟨"d1", "w", []⟩]).doc_freq.lookup t)) :=
  ⟨by decide, by decide,
    bm25_readd_amended tokenize (addDocuments tokenize ⟨[], [], [], 0⟩ [⟨"d1", "w", []⟩])
      ⟨"d1", "w", []⟩ (by decide) (by decide)⟩

end BM25

namespace VecStore

/-- Stored vector with metadata (`VectorItem` dataclass). -/
structure VectorItem where
  item_id : String
  vector : List ℚ
  metadata : List (String × String)
deriving Repr, DecidableEq

/-- `_match_filters`: every filter key must be present in the metadata
with exactly the filter's value. -/
def matchFilters (md fs : List (String × String)) : Bool :=
  fs.all (fun kv =>
    match md.lookup kv.1 with
    | some v => v = kv.2
    | none => false)

/-- `cosine_similarity`: 0 when either vector is empty or the lengths
differ or either norm is 0; otherwise dot / (‖a‖·‖b‖).  Components are
rationals; the square roots live in ℝ. -/
noncomputable def cosSim (a b : List ℚ) : ℝ :=
  if a = [] ∨ b = [] ∨ a.length ≠ b.length then 0
  else
    let dot : ℚ := (List.zipWith (fun x y => x * y) a b).sum
    let na2 : ℚ := (a.map (fun x => x * x)).sum
    let nb2 : ℚ := (b.map (fun x => x * x)).sum
    if na2 = 0 ∨ nb2 = 0 then 0
    else (dot : ℝ) / (Real.sqrt (na2 : ℝ) * Real.sqrt (nb2 : ℝ))

/-- Stable descending insertion of a scored item. -/
noncomputable def insertScored (x : ℝ × VectorItem) :
    List (ℝ × VectorItem) → List (ℝ × VectorItem)
  | [] => [x]
  | y :: ys => if y.1 ≤ x.1 then x :: y :: ys else y :: insertScored x ys

/-- Stable sort of scored items by similarity descending (the semantics
of `scored.sort(key=..., reverse=True)`). -/
noncomputable def sortScoredDesc : List (ℝ × VectorItem) → List (ℝ × VectorItem)
  | [] => []
  | x :: xs => insertScored x (sortScoredDesc xs)

/-- The scoring loop of `InMemoryVectorStore.query`: stored items that
fail the (equality) metadata filters are skipped, the rest are paired
with their cosine similarity against the query vector, in store order.
An empty filter dict is falsy in Python, so filtering only applies when
`fs` is nonempty. -/
noncomputable def scoredOf (items : List (String × VectorItem)) (v : List ℚ)
    (fs : List (String × String)) : List (ℝ × VectorItem) :=
  items.foldl
    (fun acc p =>
      if fs ≠ [] ∧ matchFilters (p.2 : VectorItem).metadata fs = false then acc
      else acc ++ [(cosSim v (p.2 : VectorItem).vector, p.2)])
    ([] : List (ℝ × VectorItem))

/-- `InMemoryVectorStore.query`: score the eligible items, sort by
similarity descending, truncate to `top_k`. -/
noncomputable def query (items : List (String × VectorItem)) (v : List ℚ) (k : ℕ)
    (fs : List (String × String)) : List VectorItem :=
  ((sortScoredDesc (scoredOf items v fs)).take k).map Prod.snd

/-- C9: degenerate inputs never fail and always produce an empty result
list: a query with no tokens, a lexical search against an empty index, a
vector query against an empty store, and a vector query whose filters
exclude every stored item. -/
theorem degenerate_empty_results (tok : String → List String) (log : ℚ → ℚ)
    (summarize : String → String) (idx : BM25.BM25Index) (q : String) (k : ℕ) (k1 b : ℚ)
    (items : List (String × VectorItem)) (v : List ℚ) (kv : ℕ) (fs : List (String × String)) :
    (tok q = [] → BM25.search tok log summarize idx q k k1 b = []) ∧
    (idx.docs = [] → BM25.search tok log summarize idx q k k1 b = []) ∧
    (items = [] → query items v kv fs = []) ∧
    ((∀ p ∈ items, matchFilters (p.2 : VectorItem).metadata fs = false) →
      query items v kv fs = []) := by
  refine ⟨?_, ?_, ?_, ?_⟩
  · intro h
    simp [BM25.search, h]
  · intro h
    by_cases hq : tok q = []
    · simp [BM25.search, hq]
    · simp [BM25.search, hq, h, BM25.sortPairsDesc]
  · intro h
    simp [query, scoredOf, h, sortScoredDesc]
  · intro h
    by_cases hfs : fs = []
    · cases hitems : items with
      | nil => simp [query, scoredOf, hitems, sortScoredDesc]
      | cons p rest =>
        exfalso
        have := h p (by simp [hitems])
        rw [hfs] at this
        simp [matchFilters] at this
    · have hgen : ∀ (l : List (String × VectorItem)) (acc : List (ℝ × VectorItem)),
          (∀ p ∈ l, matchFilters (p.2 : VectorItem).metadata fs = false) →
          l.foldl
            (fun acc p =>
              if fs ≠ [] ∧ matchFilters (p.2 : VectorItem).metadata fs = false then acc
              else acc ++ [(cosSim v (p.2 : VectorItem).vector, p.2)]) acc = acc := by
        intro l
        induction l with
        | nil =>
          intro acc _
          rfl
        | cons p rest ih =>
          intro acc hall
          have hp := hall p (by simp)
          simp only [List.foldl, if_pos (And.intro hfs hp)]
          exact ih acc (fun r hr => hall r (List.mem_cons_of_mem _ hr))
      have hscored : scoredOf items v fs = [] := hgen items [] h
      simp [query, hscored, sortScoredDesc]

/-- Witness for C9 at concrete inputs: an empty-tokenizing query against
a one-document index, a query against the empty index, a vector query on
the empty store, and a vector query whose filter matches nothing. -/
theorem degenerate_empty_results_witness :
    BM25.search BM25.tokenize (fun x => x) (fun _ => "")
      ⟨[("d1", ⟨"d1", "w", []⟩)], [("w", 1)], [("d1", 1)], 1⟩ "" 5 (3/2) (3/4) = [] ∧
    BM25.search BM25.tokenize (fun x => x) (fun _ => "") ⟨[], [], [], 0⟩ "react" 5 (3/2) (3/4) = [] ∧
    query [] [1, 0] 3 [] = [] ∧
    query [("a", ⟨"a", [1], [("ns", "x")]⟩)] [1, 0] 3 [("ns", "y")] = [] :=
  ⟨(degenerate_empty_results BM25.tokenize (fun x => x) (fun _ => "")
      ⟨[("d1", ⟨"d1", "w", []⟩)], [("w", 1)], [("d1", 1)], 1⟩ "" 5 (3/2) (3/4) [] [1, 0] 3 []).1
      rfl,
   (degenerate_empty_results BM25.tokenize (fun x => x) (fun _ => "")
      ⟨[], [], [], 0⟩ "react" 5 (3/2) (3/4) [] [1, 0] 3 []).2.1 rfl,
   (degenerate_empty_results BM25.tokenize (fun x => x) (fun _ => "")
      ⟨[], [], [], 0⟩ "react" 5 (3/2) (3/4) [] [1, 0] 3 []).2.2.1 rfl,
   (degenerate_empty_results BM25.tokenize (fun x => x) (fun _ => "")
      ⟨[], [], [], 0⟩ "react" 5 (3/2) (3/4) [("a", ⟨"a", [1], [("ns", "x")]⟩)] [1, 0] 3
      [("ns", "y")]).2.2.2 (by decide)⟩

end VecStore

namespace NatRepr

theorem toDigitsCore_eq_digits :
    ∀ (f n : ℕ) (acc : List Char), 0 < n → n < f →
    Nat.toDigitsCore 10 f n acc = ((Nat.digits 10 n).map Nat.digitChar).reverse ++ acc := by
  intro f
  induction f with
  | zero =>
    intro n acc h1 h2
    omega
  | succ f ih =>
    intro n acc hpos hlt
    rw [Nat.toDigitsCore]
    have hdig : Nat.digits 10 n = n % 10 :: Nat.digits 10 (n / 10) :=
      Nat.digits_def' (by norm_num) hpos
    by_cases h0 : n / 10 = 0
    · rw [if_pos h0, hdig, h0]
      simp
    · rw [if_neg h0]
      have hp : 0 < n / 10 := Nat.pos_of_ne_zero h0
      have hl : n / 10 < f := by
        have hd : n / 10 < n := Nat.div_lt_self hpos (by norm_num)
        omega
      rw [ih (n / 10) (Nat.digitChar (n % 10) :: acc) hp hl, hdig]
      simp

theorem digitChar_inj_lt : ∀ a < 10, ∀ b < 10, Nat.digitChar a = Nat.digitChar b → a = b := by
  decide

theorem map_digitChar_inj :
    ∀ (l₁ l₂ : List ℕ), (∀ x ∈ l₁, x < 10) → (∀ x ∈ l₂, x < 10) →
    l₁.map Nat.digitChar = l₂.map Nat.digitChar → l₁ = l₂ := by
  intro l₁
  induction l₁ with
  | nil =>
    intro l₂ _ _ h
    cases l₂ with
    | nil => rfl
    | cons b bs => simp at h
  | cons a as ih =>
    intro l₂ h1 h2 h
    cases l₂ with
    | nil => simp at h
    | cons b bs =>
      simp only [List.map, List.cons.injEq] at h
      have ha : a = b :=
        digitChar_inj_lt a (h1 a (by simp)) b (h2 b (by simp)) h.1
      have hs : as = bs :=
        ih bs (fun x hx => h1 x (by simp [hx])) (fun x hx => h2 x (by simp [hx])) h.2
      rw [ha, hs]

theorem repr_pos_inj (m n : ℕ) (hm : 0 < m) (hn : 0 < n) (h : Nat.repr m = Nat.repr n) :
    m = n := by
  have hm' : Nat.toDigitsCore 10 (m + 1) m [] =
      ((Nat.digits 10 m).map Nat.digitChar).reverse ++ [] :=
    toDigitsCore_eq_digits (m + 1) m [] hm (Nat.lt_succ_self m)
  have hn' : Nat.toDigitsCore 10 (n + 1) n [] =
      ((Nat.digits 10 n).map Nat.digitChar).reverse ++ [] :=
    toDigitsCore_eq_digits (n + 1) n [] hn (Nat.lt_succ_self n)
  have hs : (Nat.toDigits 10 m).asString = (Nat.toDigits 10 n).asString := h
  have hl : Nat.toDigits 10 m = Nat.toDigits 10 n := by
    have := congrArg String.data hs
    simpa [List.asString] using this
  rw [Nat.toDigits, Nat.toDigits, hm', hn'] at hl
  simp only [List.append_nil] at hl
  have hrev := List.reverse_injective hl
  have hdg : Nat.digits 10 m = Nat.digits 10 n :=
    map_digitChar_inj _ _
      (fun x hx => Nat.digits_lt_base (by norm_num) hx)
      (fun x hx => Nat.digits_lt_base (by norm_num) hx) hrev
  have := congrArg (Nat.ofDigits 10) hdg
  rwa [Nat.ofDigits_digits, Nat.ofDigits_digits] at this

end NatRepr

namespace Cache

/-- Answer-cache entry (`CacheEntry` dataclass). -/
structure CacheEntry where
  entry_id : String
  query : String
  answer : String
  metadata : List (String × String)
deriving Repr, DecidableEq

/-- Similarity-gated answer cache state (`SemanticCache.__init__`): the
private vector store's id → item dictionary, the id → entry dictionary,
and the similarity threshold. -/
structure SemanticCache where
  storeItems : List (String × VecStore.VectorItem)
  entries : List (String × CacheEntry)
  threshold : ℚ

/-- `SemanticCache.get`: embed the query, fetch the single nearest stored
neighbor under the metadata filter, reject when its similarity is
strictly below the threshold, otherwise return the entry keyed by the
neighbor's id.  `embed` is the `cheap_embed` collaborator. -/
noncomputable def cacheGet (embed : String → List ℚ) (c : SemanticCache) (q : String)
    (md : List (String × String)) : Option CacheEntry :=
  let vector := embed q
  match VecStore.query c.storeItems vector 1 md with
  | [] => none
  | item :: _ =>
    if VecStore.cosSim vector item.vector < (c.threshold : ℝ) then none
    else c.entries.lookup item.item_id

/-- `SemanticCache.set`: mint the sequential id `cache:{len+1}`, record
the entry under it and upsert the query embedding into the private vector
store under the same id. -/
def cacheSet (embed : String → List ℚ) (c : SemanticCache) (q answer : String)
    (md : List (String × String)) : CacheEntry × SemanticCache :=
  let entry_id := "cache:" ++ Nat.repr (c.entries.length + 1)
  let entry : CacheEntry := ⟨entry_id, q, answer, md⟩
  let vector := embed q
  (entry,
   { c with
     entries := Engine.dictInsert c.entries entry_id entry
     storeItems := Engine.dictInsert c.storeItems entry_id ⟨entry_id, vector, md⟩ })

/-- A sequence of `set` calls applied to a cache. -/
def applySets (embed : String → List ℚ)
    (ops : List (String × String × List (String × String))) (c : SemanticCache) :
    SemanticCache :=
  ops.foldl (fun c op => (cacheSet embed c op.1 op.2.1 op.2.2).2) c

/-- The entry ids a cache reached from empty by `set` calls holds:
`cache:1 … cache:n`. -/
def cacheIds (n : ℕ) : List String :=
  (List.range n).map (fun i => "cache:" ++ Nat.repr (i + 1))

theorem cacheId_fresh (n : ℕ) : "cache:" ++ Nat.repr (n + 1) ∉ cacheIds n := by
  intro hmem
  obtain ⟨i, hi, heq⟩ := List.mem_map.mp hmem
  have hrange := List.mem_range.mp hi
  have hrepr : Nat.repr (i + 1) = Nat.repr (n + 1) := by
    have hdata := congrArg String.data heq
    simp only [String.data_append] at hdata
    have := List.append_cancel_left hdata
    exact String.ext this
  have := NatRepr.repr_pos_inj (i + 1) (n + 1) (Nat.succ_pos i) (Nat.succ_pos n) hrepr
  omega

/-- Key-list invariant maintained by `set`. -/
def EntriesSeq (c : SemanticCache) : Prop :=
  c.entries.map Prod.fst = cacheIds c.entries.length

theorem dictInsert_of_lookup_none {β : Type} (l : List (String × β)) (k : String) (v : β)
    (h : l.lookup k = none) : Engine.dictInsert l k v = l ++ [(k, v)] := by
  induction l with
  | nil => rfl
  | cons p rest ih =>
    obtain ⟨k', v'⟩ := p
    simp only [List.lookup] at h
    by_cases hk : k = k'
    · simp [hk] at h
    · have hb : (k == k') = false := beq_eq_false_iff_ne.mpr hk
      rw [hb] at h
      have hk2 : ¬ k' = k := fun he => hk he.symm
      rw [Engine.dictInsert, if_neg hk2, ih h]
      simp

theorem entriesSeq_cacheSet (embed : String → List ℚ) (c : SemanticCache)
    (q a : String) (md : List (String × String)) (h : EntriesSeq c) :
    EntriesSeq (cacheSet embed c q a md).2 := by
  unfold EntriesSeq at h ⊢
  have hfresh : "cache:" ++ Nat.repr (c.entries.length + 1) ∉ c.entries.map Prod.fst := by
    rw [h]
    exact cacheId_fresh c.entries.length
  have hnone : c.entries.lookup ("cache:" ++ Nat.repr (c.entries.length + 1)) = none :=
    Engine.lookup_eq_none_of_not_mem_keys _ _ hfresh
  simp only [cacheSet]
  rw [dictInsert_of_lookup_none _ _ _ hnone]
  rw [List.length_append, List.map_append, h]
  unfold cacheIds
  simp [List.range_succ]

theorem entriesSeq_applySets (embed : String → List ℚ)
    (ops : List (String × String × List (String × String))) (c : SemanticCache)
    (h : EntriesSeq c) : EntriesSeq (applySets embed ops c) := by
  induction ops generalizing c with
  | nil => exact h
  | cons op rest ih =>
    exact ih _ (entriesSeq_cacheSet embed c op.1 op.2.1 op.2.2 h)

theorem cacheSet_fresh_of_seq (embed : String → List ℚ) (c : SemanticCache) (q a : String)
    (md : List (String × String)) (hseq : EntriesSeq c) :
    (cacheSet embed c q a md).1.entry_id ∉ c.entries.map Prod.fst ∧
    (cacheSet embed c q a md).2.entries.length = c.entries.length + 1 ∧
    (∀ k ∈ c.entries.map Prod.fst,
      (cacheSet embed c q a md).2.entries.lookup k = c.entries.lookup k) ∧
    (cacheSet embed c q a md).2.entries.lookup (cacheSet embed c q a md).1.entry_id =
      some (cacheSet embed c q a md).1 := by
  have hfresh : "cache:" ++ Nat.repr (c.entries.length + 1) ∉ c.entries.map Prod.fst := by
    rw [hseq]
    exact cacheId_fresh c.entries.length
  have hnone : c.entries.lookup ("cache:" ++ Nat.repr (c.entries.length + 1)) = none :=
    Engine.lookup_eq_none_of_not_mem_keys _ _ hfresh
  refine ⟨hfresh, ?_, ?_, ?_⟩
  · simp only [cacheSet]
    exact Engine.length_dictInsert_new _ _ _ hnone
  · intro k hk
    have hne : k ≠ "cache:" ++ Nat.repr (c.entries.length + 1) := by
      intro he
      rw [he] at hk
      exact hfresh hk
    simp only [cacheSet]
    exact Engine.lookup_dictInsert_other _ _ _ _ hne
  · simp only [cacheSet]
    exact Engine.lookup_dictInsert_self _ _ _

/-- C10: starting from the empty cache and applying any sequence of `set`
calls, a further `set` mints a sequential id distinct from every id
already present, grows the entry count by exactly one, leaves every
existing entry untouched, and records the new entry under the new id —
`set` never overwrites or merges, even for a repeated query. -/
theorem cache_set_fresh (embed : String → List ℚ)
    (ops : List (String × String × List (String × String))) (t : ℚ) (q a : String)
    (md : List (String × String)) :
    (cacheSet embed (applySets embed ops ⟨[], [], t⟩) q a md).1.entry_id ∉
      (applySets embed ops ⟨[], [], t⟩).entries.map Prod.fst ∧
    (cacheSet embed (applySets embed ops ⟨[], [], t⟩) q a md).2.entries.length =
      (applySets embed ops ⟨[], [], t⟩).entries.length + 1 ∧
    (∀ k ∈ (applySets embed ops ⟨[], [], t⟩).entries.map Prod.fst,
      (cacheSet embed (applySets embed ops ⟨[], [], t⟩) q a md).2.entries.lookup k =
        (applySets embed ops ⟨[], [], t⟩).entries.lookup k) ∧
    (cacheSet embed (applySets embed ops ⟨[], [], t⟩) q a md).2.entries.lookup
        (cacheSet embed (applySets embed ops ⟨[], [], t⟩) q a md).1.entry_id =
      some (cacheSet embed (applySets embed ops ⟨[], [], t⟩) q a md).1 :=
  cacheSet_fresh_of_seq embed (applySets embed ops ⟨[], [], t⟩) q a md
    (entriesSeq_applySets embed ops ⟨[], [], t⟩ (by simp [EntriesSeq, cacheIds]))

end Cache

namespace VecStore

theorem mem_insertScored (x y : ℝ × VectorItem) (l : List (ℝ × VectorItem)) :
    y ∈ insertScored x l ↔ y = x ∨ y ∈ l := by
  induction l with
  | nil => simp [insertScored]
  | cons z zs ih =>
    by_cases h : z.1 ≤ x.1
    · simp [insertScored, h]
    · simp only [insertScored, if_neg h, List.mem_cons, ih]
      tauto

theorem mem_sortScoredDesc (y : ℝ × VectorItem) (l : List (ℝ × VectorItem)) :
    y ∈ sortScoredDesc l ↔ y ∈ l := by
  induction l with
  | nil => simp [sortScoredDesc]
  | cons x xs ih => simp [sortScoredDesc, mem_insertScored, ih]

theorem sorted_insertScored (x : ℝ × VectorItem) (l : List (ℝ × VectorItem))
    (h : List.Sorted (fun a b : ℝ × VectorItem => b.1 ≤ a.1) l) :
    List.Sorted (fun a b : ℝ × VectorItem => b.1 ≤ a.1) (insertScored x l) := by
  induction l with
  | nil => simp [insertScored]
  | cons z zs ih =>
    rw [List.sorted_cons] at h
    by_cases hz : z.1 ≤ x.1
    · rw [insertScored, if_pos hz, List.sorted_cons]
      refine ⟨?_, List.sorted_cons.mpr h⟩
      intro b hb
      rcases List.mem_cons.mp hb with hb | hb
      · subst hb
        exact hz
      · exact le_trans (h.1 b hb) hz
    · rw [insertScored, if_neg hz, List.sorted_cons]
      refine ⟨?_, ih h.2⟩
      intro b hb
      rcases (mem_insertScored x b zs).mp hb with hb | hb
      · subst hb
        exact le_of_not_le hz
      · exact h.1 b hb

theorem sorted_sortScoredDesc (l : List (ℝ × VectorItem)) :
    List.Sorted (fun a b : ℝ × VectorItem => b.1 ≤ a.1) (sortScoredDesc l) := by
  induction l with
  | nil => simp [sortScoredDesc]
  | cons x xs ih => exact sorted_insertScored x _ ih

theorem head_sortScoredDesc_max (l : List (ℝ × VectorItem)) (x : ℝ × VectorItem)
    (h : (sortScoredDesc l).head? = some x) : ∀ y ∈ l, y.1 ≤ x.1 := by
  intro y hy
  cases hs : sortScoredDesc l with
  | nil => rw [hs] at h; simp at h
  | cons z t =>
    rw [hs] at h
    simp only [List.head?] at h
    injection h with hzx
    subst hzx
    have hmem : y ∈ sortScoredDesc l := (mem_sortScoredDesc y l).mpr hy
    rw [hs] at hmem
    rcases List.mem_cons.mp hmem with hm | hm
    · subst hm
      exact le_refl _
    · have hsorted := sorted_sortScoredDesc l
      rw [hs, List.sorted_cons] at hsorted
      exact hsorted.1 y hm

theorem mem_scoredOf (items : List (String × VectorItem)) (v : List ℚ)
    (fs : List (String × String)) (x : ℝ × VectorItem) :
    x ∈ scoredOf items v fs ↔
      ∃ p, p ∈ items ∧ ¬(fs ≠ [] ∧ matchFilters (p.2 : VectorItem).metadata fs = false) ∧
        x = (cosSim v (p.2 : VectorItem).vector, p.2) := by
  have haux : ∀ (l : List (String × VectorItem)) (acc : List (ℝ × VectorItem)),
      x ∈ l.foldl
        (fun acc p =>
          if fs ≠ [] ∧ matchFilters (p.2 : VectorItem).metadata fs = false then acc
          else acc ++ [(cosSim v (p.2 : VectorItem).vector, p.2)]) acc ↔
      x ∈ acc ∨ ∃ p, p ∈ l ∧ ¬(fs ≠ [] ∧ matchFilters (p.2 : VectorItem).metadata fs = false) ∧
        x = (cosSim v (p.2 : VectorItem).vector, p.2) := by
    intro l
    induction l with
    | nil => simp
    | cons p rest ih =>
      intro acc
      by_cases hc : fs ≠ [] ∧ matchFilters (p.2 : VectorItem).metadata fs = false
      · rw [List.foldl_cons, if_pos hc, ih]
        constructor
        · intro h
          rcases h with h | ⟨r, hr, he, hx⟩
          · exact Or.inl h
          · exact Or.inr ⟨r, List.mem_cons_of_mem _ hr, he, hx⟩
        · intro h
          rcases h with h | ⟨r, hr, he, hx⟩
          · exact Or.inl h
          · rcases List.mem_cons.mp hr with hr | hr
            · subst hr
              exact absurd hc he
            · exact Or.inr ⟨r, hr, he, hx⟩
      · rw [List.foldl_cons, if_neg hc, ih]
        constructor
        · intro h
          rcases h with h | ⟨r, hr, he, hx⟩
          · rcases List.mem_append.mp h with h | h
            · exact Or.inl h
            · simp only [List.mem_singleton] at h
              exact Or.inr ⟨p, List.mem_cons_self p rest, hc, h⟩
          · exact Or.inr ⟨r, List.mem_cons_of_mem _ hr, he, hx⟩
        · intro h
          rcases h with h | ⟨r, hr, he, hx⟩
          · exact Or.inl (List.mem_append.mpr (Or.inl h))
          · rcases List.mem_cons.mp hr with hr | hr
            · subst hr
              exact Or.inl (List.mem_append.mpr (Or.inr (by simp [hx])))
            · exact Or.inr ⟨r, hr, he, hx⟩
  rw [scoredOf, haux items []]
  simp

end VecStore

namespace Cache

/-- C4: with the cache's entry map covering every stored vector id, `get`
returns absent exactly when no eligible neighbor exists or the top
neighbor's similarity is strictly below the threshold; a similarity
greater than or equal to the threshold — in particular exactly equal —
is a hit returning the entry keyed by the neighbor's id; and the top
neighbor's similarity is maximal among all eligible stored items. -/
theorem cache_threshold_boundary (embed : String → List ℚ) (c : SemanticCache) (q : String)
    (md : List (String × String))
    (hsync : ∀ p ∈ c.storeItems,
      (c.entries.lookup (p.2 : VecStore.VectorItem).item_id).isSome) :
    (cacheGet embed c q md = none ↔
      ((VecStore.query c.storeItems (embed q) 1 md).head? = none ∨
        ∃ it, (VecStore.query c.storeItems (embed q) 1 md).head? = some it ∧
          VecStore.cosSim (embed q) it.vector < (c.threshold : ℝ))) ∧
    (∀ it, (VecStore.query c.storeItems (embed q) 1 md).head? = some it →
      (c.threshold : ℝ) ≤ VecStore.cosSim (embed q) it.vector →
      cacheGet embed c q md = c.entries.lookup it.item_id ∧
        (cacheGet embed c q md).isSome) ∧
    (∀ it, (VecStore.query c.storeItems (embed q) 1 md).head? = some it →
      ∀ p ∈ c.storeItems,
        (md = [] ∨ VecStore.matchFilters (p.2 : VecStore.VectorItem).metadata md = true) →
        VecStore.cosSim (embed q) (p.2 : VecStore.VectorItem).vector ≤
          VecStore.cosSim (embed q) it.vector) := by
  cases hs : VecStore.sortScoredDesc (VecStore.scoredOf c.storeItems (embed q) md) with
  | nil =>
    have hq : VecStore.query c.storeItems (embed q) 1 md = [] := by
      simp only [VecStore.query, hs]
      rfl
    have hres : cacheGet embed c q md = none := by
      simp only [cacheGet, hq]
    refine ⟨?_, ?_, ?_⟩
    · constructor
      · intro _
        left
        rw [hq]
        rfl
      · intro _
        exact hres
    · intro it hit
      rw [hq] at hit
      simp at hit
    · intro it hit
      rw [hq] at hit
      simp at hit
  | cons x t =>
    have hq : VecStore.query c.storeItems (embed q) 1 md = [x.2] := by
      simp only [VecStore.query, hs]
      rfl
    have hnbr : (VecStore.query c.storeItems (embed q) 1 md).head? = some x.2 := by
      rw [hq]
      rfl
    have hxmem : x ∈ VecStore.scoredOf c.storeItems (embed q) md := by
      have hx : x ∈ VecStore.sortScoredDesc (VecStore.scoredOf c.storeItems (embed q) md) := by
        rw [hs]
        simp
      exact (VecStore.mem_sortScoredDesc _ _).mp hx
    obtain ⟨p, hpmem, hpe, hpx⟩ := (VecStore.mem_scoredOf _ _ _ _).mp hxmem
    have hx1 : x.1 = VecStore.cosSim (embed q) (x.2 : VecStore.VectorItem).vector := by
      rw [hpx]
    have hres : cacheGet embed c q md =
        (if VecStore.cosSim (embed q) (x.2 : VecStore.VectorItem).vector < (c.threshold : ℝ)
          then none else c.entries.lookup (x.2 : VecStore.VectorItem).item_id) := by
      simp only [cacheGet, hq]
    have hsome : (c.entries.lookup (x.2 : VecStore.VectorItem).item_id).isSome := by
      have hsy := hsync p hpmem
      have h2 : (p.2 : VecStore.VectorItem) = x.2 := by
        rw [hpx]
      rwa [h2] at hsy
    refine ⟨?_, ?_, ?_⟩
    · constructor
      · intro hnone
        rw [hres] at hnone
        by_cases hlt : VecStore.cosSim (embed q) (x.2 : VecStore.VectorItem).vector <
            (c.threshold : ℝ)
        · right
          exact ⟨x.2, hnbr, hlt⟩
        · rw [if_neg hlt] at hnone
          rw [hnone] at hsome
          simp at hsome
      · intro hcase
        rcases hcase with hcase | ⟨it, hit, hlt⟩
        · rw [hnbr] at hcase
          simp at hcase
        · rw [hnbr] at hit
          injection hit with hit
          subst hit
          rw [hres, if_pos hlt]
    · intro it hit hge
      rw [hnbr] at hit
      injection hit with hit
      subst hit
      have hnlt : ¬ VecStore.cosSim (embed q) (x.2 : VecStore.VectorItem).vector <
          (c.threshold : ℝ) := not_lt.mpr hge
      rw [hres, if_neg hnlt]
      exact ⟨rfl, hsome⟩
    · intro it hit r hrmem helig
      rw [hnbr] at hit
      injection hit with hit
      subst hit
      have hpair : (VecStore.cosSim (embed q) (r.2 : VecStore.VectorItem).vector, r.2) ∈
          VecStore.scoredOf c.storeItems (embed q) md := by
        apply (VecStore.mem_scoredOf _ _ _ _).mpr
        refine ⟨r, hrmem, ?_, rfl⟩
        rintro ⟨hne, hmf⟩
        rcases helig with he | he
        · exact hne he
        · rw [he] at hmf
          exact Bool.noConfusion hmf
      have hmax := VecStore.head_sortScoredDesc_max
        (VecStore.scoredOf c.storeItems (embed q) md) x (by rw [hs]; rfl) _ hpair
      rw [hx1] at hmax
      exact hmax

/-- Witness for C4 at a concrete input: a one-entry cache whose stored
vector matches the query embedding with similarity exactly equal to the
threshold 1, which counts as a hit. -/
theorem cache_threshold_boundary_witness :
    (∀ p ∈ ([("cache:1", ⟨"cache:1", [1, 0], []⟩)] :
        List (String × VecStore.VectorItem)),
      (([("cache:1", ⟨"cache:1", "install python", "run the installer", []⟩)] :
          List (String × CacheEntry)).lookup (p.2 : VecStore.VectorItem).item_id).isSome) ∧
    (cacheGet (fun _ => [1, 0])
        ⟨[("cache:1", ⟨"cache:1", [1, 0], []⟩)],
         [("cache:1", ⟨"cache:1", "install python", "run the installer", []⟩)], 1⟩
        "install python" [] =
      ([("cache:1", ⟨"cache:1", "install python", "run the installer", []⟩)] :
        List (String × CacheEntry)).lookup
          ((⟨"cache:1", [1, 0], []⟩ : VecStore.VectorItem)).item_id ∧
      (cacheGet (fun _ => [1, 0])
        ⟨[("cache:1", ⟨"cache:1", [1, 0], []⟩)],
         [("cache:1", ⟨"cache:1", "install python", "run the installer", []⟩)], 1⟩
        "install python" []).isSome) := by
  have hsync : ∀ p ∈ ([("cache:1", ⟨"cache:1", [1, 0], []⟩)] :
      List (String × VecStore.VectorItem)),
      (([("cache:1", ⟨"cache:1", "install python", "run the installer", []⟩)] :
          List (String × CacheEntry)).lookup (p.2 : VecStore.VectorItem).item_id).isSome := by
    intro p hp
    rcases List.mem_singleton.mp hp with rfl
    rfl
  have hhead : (VecStore.query [("cache:1", ⟨"cache:1", [1, 0], []⟩)] [1, 0] 1 []).head? =
      some ⟨"cache:1", [1, 0], []⟩ := rfl
  have hcos : VecStore.cosSim [1, 0] [1, 0] = 1 := by
    rw [VecStore.cosSim, if_neg (by simp)]
    norm_num [Real.sqrt_one]
  have hge : ((1 : ℚ) : ℝ) ≤
      VecStore.cosSim [1, 0] ((⟨"cache:1", [1, 0], []⟩ : VecStore.VectorItem)).vector := by
    rw [show ((⟨"cache:1", [1, 0], []⟩ : VecStore.VectorItem)).vector = [1, 0] from rfl, hcos]
    norm_num
  exact ⟨hsync,
    (cache_threshold_boundary (fun _ => [1, 0])
      ⟨[("cache:1", ⟨"cache:1", [1, 0], []⟩)],
       [("cache:1", ⟨"cache:1", "install python", "run the installer", []⟩)], 1⟩
      "install python" [] hsync).2.1 ⟨"cache:1", [1, 0], []⟩ hhead hge⟩

end Cache
